import Mathlib

/-!
Verification of the i18n helper extension core against its design
specification.  The definitions below are shallow embeddings of the
TypeScript sources:

* `TranslationService` (dictionary store: load / resolve / add),
* `JsonKeyPathService.getKeyPathAtPosition` (textual key-path resolver),
* `LanguageFilesService` (language-file registry, cross-file navigation,
  missing-key creation),
* the `I18N_KEY_PATTERN` regular expression (key pattern matcher).

JSON values that the services manipulate are restricted to the dictionary
tree data model of the design (string leaves and nested namespace objects);
objects are modelled as association lists preserving insertion order, which
matches JavaScript object property order for JSON-parsed data.  Platform
JSON serialization (`JSON.stringify` / `JSON.parse`) is modelled as
value-preserving persistence: a written tree is read back as an equal tree,
which is a property of the JSON format, not of repository code.
-/

/-- Dictionary tree: a leaf translation string or a namespace object,
the `I18nTranslations` data model of `src/models/types.ts`. -/
inductive DictTree where
  | leaf (s : String)
  | node (entries : List (String × DictTree))

/-- First binding of a key in an association list, mirroring JavaScript
own-property lookup on a JSON-parsed object. -/
def lookupEntry : List (String × DictTree) → String → Option DictTree
  | [], _ => none
  | (k, t) :: rest, key => if k = key then some t else lookupEntry rest key

/-- JavaScript property assignment on a JSON-parsed object: replace the
binding in place when the key is present, append it otherwise. -/
def setEntry : List (String × DictTree) → String → DictTree → List (String × DictTree)
  | [], key, v => [(key, v)]
  | (k, t) :: rest, key, v =>
    if k = key then (k, v) :: rest else (k, t) :: setEntry rest key v

/-- JavaScript `s.split(".")` over the character list: splitting on every
dot, keeping empty segments, and returning at least one segment. -/
def splitDots : List Char → List (List Char)
  | [] => [[]]
  | c :: t =>
    if c = '.' then [] :: splitDots t
    else
      match splitDots t with
      | g :: gs => (c :: g) :: gs
      | [] => [[c]]

/-- Key splitting `key.split(".")` as used by every tree walk in the
sources. -/
def splitKey (key : String) : List String :=
  (splitDots key.toList).map List.asString

theorem splitDots_ne_nil (l : List Char) : splitDots l ≠ [] := by
  induction l with
  | nil => simp [splitDots]
  | cons c t ih =>
    by_cases h : c = '.'
    · simp [splitDots, h]
    · simp only [splitDots, if_neg h]
      cases hs : splitDots t with
      | nil => exact absurd hs ih
      | cons g gs => simp

theorem splitKey_ne_nil (key : String) : splitKey key ≠ [] := by
  have h := splitDots_ne_nil key.toList
  unfold splitKey
  cases hs : splitDots key.toList with
  | nil => exact absurd hs h
  | cons g gs => simp

/-- Child access `currentObj[part]`: a property of a namespace object, and
no child for a leaf string (within the dictionary tree data model). -/
def childOf : DictTree → String → Option DictTree
  | .leaf _, _ => none
  | .node es, key => lookupEntry es key

/-- DictTree walk of `TranslationService.getTranslationValue`: return
`undefined` as soon as a segment is not a property, otherwise descend. -/
def walkValue : DictTree → List String → Option DictTree
  | t, [] => some t
  | t, p :: rest =>
    match childOf t p with
    | none => none
    | some t2 => walkValue t2 rest

/-- `TranslationService.getTranslationValue` (src/unnamed/part_005,
lines 704-716): split the key on dots, walk the in-memory translations,
and return the terminal value exactly when it is a string. -/
def getTranslationValue (es : List (String × DictTree)) (key : String) : Option String :=
  match walkValue (DictTree.node es) (splitKey key) with
  | some (DictTree.leaf s) => some s
  | _ => none

/-- Resolution as worded by the specification: fold over the segments,
failing when any segment does not resolve, then demand a string leaf. -/
def specResolve (t : DictTree) (segs : List String) : Option String :=
  match segs.foldl (fun acc p => acc.bind fun u => childOf u p) (some t) with
  | some (DictTree.leaf s) => some s
  | _ => none

theorem foldl_bind_none (segs : List String) :
    segs.foldl (fun acc p => acc.bind fun u => childOf u p) (none : Option DictTree) = none := by
  induction segs with
  | nil => rfl
  | cons p rest ih => simpa using ih

theorem walkValue_eq_foldl (segs : List String) (t : DictTree) :
    walkValue t segs = segs.foldl (fun acc p => acc.bind fun u => childOf u p) (some t) := by
  induction segs generalizing t with
  | nil => rfl
  | cons p rest ih =>
    simp only [walkValue, List.foldl_cons, Option.bind]
    cases h : childOf t p with
    | none => simpa [h] using (foldl_bind_none rest).symm
    | some t2 => simpa [h] using ih t2

/-- C1: for every loaded dictionary tree and dotted key path, the store
resolve (`getTranslationValue`) agrees with the specified segment-by-segment
walk: a string leaf (empty string included) is returned exactly, any absent
path or non-string terminal gives the not-found result `none`, and the
function is total, so it never throws. -/
theorem translation_resolve_matches_spec (es : List (String × DictTree)) (key : String) :
    getTranslationValue es key = specResolve (DictTree.node es) (splitKey key) := by
  unfold getTranslationValue specResolve
  rw [walkValue_eq_foldl]

/-- Severity of a user-visible message shown through the editor window
API; message text is not modelled, only that a message of this severity
is surfaced. -/
inductive Severity where
  | warning
  | error
  | info
deriving DecidableEq

/-- Content of a dictionary file on disk: a JSON object that parses into
a dictionary tree, or malformed text on which `JSON.parse` throws. -/
inductive FileData where
  | valid (entries : List (String × DictTree))
  | malformed

/-- Observable state of `TranslationService`: the configured i18n file on
disk (`none` when missing), the in-memory translations object, and the
loaded flag consulted by dependent features. -/
structure StoreState where
  file : Option FileData
  translations : List (String × DictTree)
  translationsLoaded : Bool

/-- Result of `loadTranslations`: the new store state and the severities
of the messages shown. -/
structure LoadOut where
  state : StoreState
  msgs : List Severity

/-- `TranslationService.loadTranslations` (src/unnamed/part_005, lines
669-697): missing workspace or missing file shows a warning and clears the
loaded flag; a parse failure shows an error and clears the loaded flag,
leaving the in-memory translations untouched; a successful parse replaces
the in-memory translations and sets the loaded flag. -/
def loadTranslations (hasWorkspace : Bool) (s : StoreState) : LoadOut :=
  if ¬hasWorkspace then
    ⟨{ s with translationsLoaded := false }, [Severity.warning]⟩
  else
    match s.file with
    | none => ⟨{ s with translationsLoaded := false }, [Severity.warning]⟩
    | some FileData.malformed =>
      ⟨{ s with translationsLoaded := false }, [Severity.error]⟩
    | some (FileData.valid es) =>
      ⟨{ s with translations := es, translationsLoaded := true }, []⟩

/-- Failure cause inside the `addTranslation` tree walk: an intermediate
segment holds a value the code refuses to descend into, or the user
declined the overwrite prompt for an existing terminal key. -/
inductive AddErr where
  | notObject
  | declined

/-- Tree walk of `TranslationService.addTranslation` (src/unnamed/part_005,
lines 758-791): `if (!currentObj[part])` creates a fresh namespace when the
property is absent or falsy (the empty string is falsy in JavaScript),
`typeof currentObj[part] !== "object"` rejects any other leaf with an
error, and an existing terminal key requires the overwrite prompt to be
answered Yes (`confirm`). -/
def addWalkNode : List String → List (String × DictTree) → String → Bool →
    Except AddErr (List (String × DictTree))
  | [], es, _, _ => Except.ok es
  | [last], es, v, confirm =>
    match lookupEntry es last with
    | some _ =>
      if confirm then Except.ok (setEntry es last (DictTree.leaf v))
      else Except.error AddErr.declined
    | none => Except.ok (setEntry es last (DictTree.leaf v))
  | p :: rest, es, v, confirm =>
    match lookupEntry es p with
    | none =>
      (addWalkNode rest [] v confirm).map fun es2 => setEntry es p (DictTree.node es2)
    | some (DictTree.leaf s) =>
      if s = ("") then
        (addWalkNode rest [] v confirm).map fun es2 => setEntry es p (DictTree.node es2)
      else Except.error AddErr.notObject
    | some (DictTree.node es1) =>
      (addWalkNode rest es1 v confirm).map fun es2 => setEntry es p (DictTree.node es2)

/-- Result of `addTranslation`: the returned boolean, the new observable
state, and the severities of the messages shown. -/
structure AddOut where
  ok : Bool
  state : StoreState
  msgs : List Severity

/-- `TranslationService.addTranslation` (src/unnamed/part_005, lines
724-806): re-reads and parses the configured file, walks and creates the
intermediate namespaces, prompts before overwriting an existing terminal
key, writes the updated tree back, and only then updates the in-memory
translations and the loaded flag. -/
def addTranslation (hasWorkspace confirm : Bool) (key value : String)
    (s : StoreState) : AddOut :=
  if ¬hasWorkspace then ⟨false, s, [Severity.warning]⟩
  else
    match s.file with
    | none => ⟨false, s, [Severity.warning]⟩
    | some FileData.malformed => ⟨false, s, [Severity.error]⟩
    | some (FileData.valid es) =>
      match addWalkNode (splitKey key) es value confirm with
      | Except.error AddErr.notObject => ⟨false, s, [Severity.error]⟩
      | Except.error AddErr.declined => ⟨false, s, []⟩
      | Except.ok es2 =>
        ⟨true, { file := some (FileData.valid es2), translations := es2,
                 translationsLoaded := true }, []⟩

theorem lookupEntry_setEntry_self (es : List (String × DictTree)) (k : String) (t : DictTree) :
    lookupEntry (setEntry es k t) k = some t := by
  induction es with
  | nil => simp [setEntry, lookupEntry]
  | cons e rest ih =>
    obtain ⟨k1, t1⟩ := e
    by_cases h : k1 = k
    · simp [setEntry, lookupEntry, h]
    · simp [setEntry, lookupEntry, h, ih]

theorem walkValue_cons (t : DictTree) (p : String) (rest : List String) :
    walkValue t (p :: rest)
      = match childOf t p with
        | none => none
        | some t2 => walkValue t2 rest := rfl

theorem walkValue_set_node (es es3 : List (String × DictTree)) (p : String)
    (segs : List String) (v : String)
    (hwalk : walkValue (DictTree.node es3) segs = some (DictTree.leaf v)) :
    walkValue (DictTree.node (setEntry es p (DictTree.node es3))) (p :: segs)
      = some (DictTree.leaf v) := by
  rw [walkValue_cons]
  simp [childOf, lookupEntry_setEntry_self, hwalk]

theorem addWalkNode_resolves (segs : List String) :
    ∀ (es es2 : List (String × DictTree)) (v : String) (confirm : Bool),
      segs ≠ [] → addWalkNode segs es v confirm = Except.ok es2 →
      walkValue (DictTree.node es2) segs = some (DictTree.leaf v) := by
  induction segs with
  | nil => intro es es2 v confirm hne; exact absurd rfl hne
  | cons p rest ih =>
    intro es es2 v confirm _ h
    cases rest with
    | nil =>
      have hset : es2 = setEntry es p (DictTree.leaf v) := by
        cases hl : lookupEntry es p with
        | none => simpa [addWalkNode, hl] using h.symm
        | some t =>
          cases confirm with
          | false => simp [addWalkNode, hl] at h
          | true => simpa [addWalkNode, hl] using h.symm
      subst hset
      simp [walkValue, childOf, lookupEntry_setEntry_self]
    | cons q rest2 =>
      cases hl : lookupEntry es p with
      | none =>
        simp only [addWalkNode, hl] at h
        cases hrec : addWalkNode (q :: rest2) [] v confirm with
        | error e => rw [hrec] at h; simp [Except.map] at h
        | ok es3 =>
          rw [hrec] at h; simp [Except.map] at h
          rw [← h]
          exact walkValue_set_node es es3 p (q :: rest2) v
            (ih [] es3 v confirm (by simp) hrec)
      | some t =>
        cases t with
        | leaf s =>
          by_cases hs : s = ("")
          · simp only [addWalkNode, hl, hs, if_pos rfl] at h
            cases hrec : addWalkNode (q :: rest2) [] v confirm with
            | error e => rw [hrec] at h; simp [Except.map] at h
            | ok es3 =>
              rw [hrec] at h; simp [Except.map] at h
              rw [← h]
              exact walkValue_set_node es es3 p (q :: rest2) v
                (ih [] es3 v confirm (by simp) hrec)
          · simp [addWalkNode, hl, hs] at h
        | node es1 =>
          simp only [addWalkNode, hl] at h
          cases hrec : addWalkNode (q :: rest2) es1 v confirm with
          | error e => rw [hrec] at h; simp [Except.map] at h
          | ok es3 =>
            rw [hrec] at h; simp [Except.map] at h
            rw [← h]
            exact walkValue_set_node es es3 p (q :: rest2) v
              (ih es1 es3 v confirm (by simp) hrec)

/-- C5: whenever `addTranslation` reports success, a fresh
`loadTranslations` from the file that was just written leaves the store
loaded and resolving the added key path yields exactly the value written. -/
theorem add_then_load_roundtrips (hasWorkspace confirm : Bool)
    (key value : String) (s : StoreState)
    (h : (addTranslation hasWorkspace confirm key value s).ok = true) :
    (loadTranslations hasWorkspace
        (addTranslation hasWorkspace confirm key value s).state).state.translationsLoaded = true ∧
    getTranslationValue
        (loadTranslations hasWorkspace
          (addTranslation hasWorkspace confirm key value s).state).state.translations key
      = some value := by
  cases hasWorkspace with
  | false => simp [addTranslation] at h
  | true =>
    cases hf : s.file with
    | none => simp [addTranslation, hf] at h
    | some fd =>
      cases fd with
      | malformed => simp [addTranslation, hf] at h
      | valid es =>
        cases hw : addWalkNode (splitKey key) es value confirm with
        | error e => cases e <;> simp [addTranslation, hf, hw] at h
        | ok es2 =>
          have hres := addWalkNode_resolves (splitKey key) es es2 value confirm
            (splitKey_ne_nil key) hw
          simp [addTranslation, hf, hw, loadTranslations, getTranslationValue, hres]

theorem add_then_load_roundtrips_witness :
    getTranslationValue
        (loadTranslations true
          (addTranslation true false ("a.b") ("v")
            (StoreState.mk (some (FileData.valid [])) [] false)).state).state.translations ("a.b")
      = some ("v") :=
  (add_then_load_roundtrips true false ("a.b") ("v")
    (StoreState.mk (some (FileData.valid [])) [] false) (by rfl)).2

/-- C8 counterexample: a store that had previously loaded successfully
(loaded flag true, valid in-memory translations) reloads a malformed file;
the code sets the loaded flag to false, so the store does not remain
loaded as the claim states. -/
theorem load_malformed_unloads_loaded_store :
    (StoreState.mk (some FileData.malformed)
        [(("a"), DictTree.leaf ("x"))] true).translationsLoaded = true ∧
    (loadTranslations true
        (StoreState.mk (some FileData.malformed)
          [(("a"), DictTree.leaf ("x"))] true)).state.translationsLoaded = false := by
  exact ⟨rfl, rfl⟩

/-- C8 amended: a load over malformed JSON reports an error and leaves the
in-memory translations equal to their previous state, but it always clears
the loaded flag, even when a prior valid state existed. -/
theorem load_malformed_keeps_translations (s : StoreState)
    (h : s.file = some FileData.malformed) :
    (loadTranslations true s).state.translations = s.translations ∧
    (loadTranslations true s).state.translationsLoaded = false ∧
    (loadTranslations true s).msgs = [Severity.error] := by
  simp [loadTranslations, h]

theorem load_malformed_keeps_translations_witness :
    (loadTranslations true
        (StoreState.mk (some FileData.malformed)
          [(("a"), DictTree.leaf ("x"))] true)).state.translations
      = [(("a"), DictTree.leaf ("x"))] :=
  (load_malformed_keeps_translations
    (StoreState.mk (some FileData.malformed)
      [(("a"), DictTree.leaf ("x"))] true) rfl).1

/-- C4: evaluation of `addTranslation` on a tree whose intermediate
segment holds an empty-string leaf.  The JavaScript falsy test
`if (!currentObj[part])` treats the empty string like an absent property,
so the code silently replaces the leaf with a namespace, drops its data,
returns success, and shows no error message, contradicting the
fail-loudly requirement. -/
theorem add_silently_drops_empty_leaf :
    addTranslation true false ("a.b") ("v")
        (StoreState.mk (some (FileData.valid [(("a"), DictTree.leaf (""))])) [] false)
      = AddOut.mk true
          (StoreState.mk
            (some (FileData.valid
              [(("a"), DictTree.node [(("b"), DictTree.leaf ("v"))])]))
            [(("a"), DictTree.node [(("b"), DictTree.leaf ("v"))])] true)
          [] := by
  rfl

/-- Tree walk of `LanguageFilesService.createMissingTranslation`
(src/src/services/language-files-service.ts, lines 279-298): absent or
falsy intermediates become fresh namespaces, any other leaf intermediate is
destructively converted into a namespace that keeps the old value under the
key `_value`, and the terminal key is set unconditionally. -/
def createWalkNode : List String → List (String × DictTree) → String →
    List (String × DictTree)
  | [], es, _ => es
  | [last], es, v => setEntry es last (DictTree.leaf v)
  | p :: rest, es, v =>
    match lookupEntry es p with
    | none => setEntry es p (DictTree.node (createWalkNode rest [] v))
    | some (DictTree.leaf s) =>
      if s = ("") then setEntry es p (DictTree.node (createWalkNode rest [] v))
      else setEntry es p
        (DictTree.node (createWalkNode rest [(("_value"), DictTree.leaf s)] v))
    | some (DictTree.node es1) => setEntry es p (DictTree.node (createWalkNode rest es1 v))

/-- Non-terminal segments of the path never hit a non-empty leaf during
the walk: the domain on which the add walk cannot fail with an error. -/
def intermediatesOk : List String → List (String × DictTree) → Bool
  | [], _ => true
  | [_], _ => true
  | p :: rest, es =>
    match lookupEntry es p with
    | none => intermediatesOk rest []
    | some (DictTree.leaf s) => if s = ("") then intermediatesOk rest [] else false
    | some (DictTree.node es1) => intermediatesOk rest es1

/-- The terminal key of the path is absent from the namespace reached by
the walk, so the add walk never shows its overwrite prompt. -/
def terminalFree : List String → List (String × DictTree) → Bool
  | [], _ => true
  | [last], es => (lookupEntry es last).isNone
  | p :: rest, es =>
    match lookupEntry es p with
    | none => terminalFree rest []
    | some (DictTree.leaf _) => terminalFree rest []
    | some (DictTree.node es1) => terminalFree rest es1

/-- C3 counterexample: the two walks do not agree on every input.  With
the tree `a ↦ "x"` and path `a.b`, the add walk fails with an error while
the create walk converts the leaf destructively and succeeds; with the
tree `k ↦ "old"`, path `k` and a declined overwrite prompt, the add walk
fails while the create walk overwrites unconditionally. -/
theorem create_walk_differs_from_add_walk :
    ¬ (addWalkNode (splitKey ("a.b")) [(("a"), DictTree.leaf ("x"))] ("v") true
        = Except.ok (createWalkNode (splitKey ("a.b")) [(("a"), DictTree.leaf ("x"))] ("v")))
    ∧ ¬ (addWalkNode (splitKey ("k")) [(("k"), DictTree.leaf ("old"))] ("v") false
        = Except.ok (createWalkNode (splitKey ("k")) [(("k"), DictTree.leaf ("old"))] ("v"))) :=
  ⟨fun h => Except.noConfusion h, fun h => Except.noConfusion h⟩

/-- C3 amended: the create walk produces the same resulting tree as the
add walk whenever no intermediate segment holds a non-empty leaf and the
terminal key is absent or the overwrite is confirmed; outside that domain
the add walk fails while the create walk proceeds (destructively
converting a leaf intermediate into a namespace keeping its old value
under `_value`, and overwriting the terminal without a prompt). -/
theorem create_walk_refines_add_walk (segs : List String) :
    ∀ (es : List (String × DictTree)) (v : String) (confirm : Bool),
      segs ≠ [] →
      intermediatesOk segs es = true →
      (terminalFree segs es = true ∨ confirm = true) →
      addWalkNode segs es v confirm = Except.ok (createWalkNode segs es v) := by
  induction segs with
  | nil => intro es v confirm hne; exact absurd rfl hne
  | cons p rest ih =>
    intro es v confirm _ hmid hterm
    cases rest with
    | nil =>
      cases hl : lookupEntry es p with
      | none => simp [addWalkNode, createWalkNode, hl]
      | some t =>
        have hc : confirm = true := by
          rcases hterm with hterm | hterm
          · simp [terminalFree, hl] at hterm
          · exact hterm
        simp [addWalkNode, createWalkNode, hl, hc]
    | cons q rest2 =>
      cases hl : lookupEntry es p with
      | none =>
        have h1 : intermediatesOk (q :: rest2) [] = true := by
          simpa [intermediatesOk, hl] using hmid
        have h2 : terminalFree (q :: rest2) [] = true ∨ confirm = true := by
          rcases hterm with hterm | hterm
          · exact Or.inl (by simpa [terminalFree, hl] using hterm)
          · exact Or.inr hterm
        simp [addWalkNode, createWalkNode, hl, ih [] v confirm (by simp) h1 h2,
          Except.map]
      | some t =>
        cases t with
        | leaf s =>
          by_cases hs : s = ("")
          · subst hs
            have h1 : intermediatesOk (q :: rest2) [] = true := by
              simpa [intermediatesOk, hl] using hmid
            have h2 : terminalFree (q :: rest2) [] = true ∨ confirm = true := by
              rcases hterm with hterm | hterm
              · exact Or.inl (by simpa [terminalFree, hl] using hterm)
              · exact Or.inr hterm
            simp [addWalkNode, createWalkNode, hl, ih [] v confirm (by simp) h1 h2,
              Except.map]
          · simp [intermediatesOk, hl, hs] at hmid
        | node es1 =>
          have h1 : intermediatesOk (q :: rest2) es1 = true := by
            simpa [intermediatesOk, hl] using hmid
          have h2 : terminalFree (q :: rest2) es1 = true ∨ confirm = true := by
            rcases hterm with hterm | hterm
            · exact Or.inl (by simpa [terminalFree, hl] using hterm)
            · exact Or.inr hterm
          simp [addWalkNode, createWalkNode, hl, ih es1 v confirm (by simp) h1 h2,
            Except.map]

theorem create_walk_refines_add_walk_witness :
    addWalkNode (splitKey ("a.b")) [] ("v") false
      = Except.ok (createWalkNode (splitKey ("a.b")) [] ("v")) :=
  create_walk_refines_add_walk (splitKey ("a.b")) [] ("v") false
    (splitKey_ne_nil ("a.b")) (by rfl) (Or.inl (by rfl))

/-- Classification of one directory entry against the pattern
`/^([a-z]{2})\.json$/i` of `LanguageFilesService.scanLanguageFiles`:
exactly two ASCII letters, a dot and `json`, all case-insensitive; a match
yields the lowercased two-letter language code. -/
def langCodeOf (name : String) : Option String :=
  match name.toList with
  | [a, b, d, j, s, o, n] =>
    if a.isAlpha ∧ b.isAlpha ∧ d = '.' ∧ j.toLower = 'j' ∧ s.toLower = 's'
        ∧ o.toLower = 'o' ∧ n.toLower = 'n' then
      some (List.asString [a.toLower, b.toLower])
    else none
  | _ => none

/-- JavaScript `Map.set`: replace the value in place when the key is
present, append the pair otherwise. -/
def mapSet : List (String × String) → String → String → List (String × String)
  | [], k, v => [(k, v)]
  | (k1, v1) :: rest, k, v =>
    if k1 = k then (k1, v) :: rest else (k1, v1) :: mapSet rest k v

/-- One iteration of the scan loop: index a matching file name by its
lowercased language code, skip anything else. -/
def scanStep (acc : List (String × String)) (f : String) : List (String × String) :=
  match langCodeOf f with
  | some code => mapSet acc code f
  | none => acc

/-- `LanguageFilesService.scanLanguageFiles`
(src/src/services/language-files-service.ts, lines 23-68): clear the prior
index, then index every directory entry whose name matches the two-letter
pattern; the indexed value is the entry itself (directory prefixing is
elided, it does not affect which entries are indexed or their keys). -/
def scanLanguageFiles (_prior : List (String × String)) (files : List String) :
    List (String × String) :=
  files.foldl scanStep []

/-- Key membership in the registry index. -/
def containsKey : List (String × String) → String → Bool
  | [], _ => false
  | (k1, _) :: rest, k => k1 = k || containsKey rest k

theorem containsKey_mapSet (m : List (String × String)) (k v c : String) :
    containsKey (mapSet m k v) c = (k = c || containsKey m c) := by
  induction m with
  | nil => simp [mapSet, containsKey]
  | cons e rest ih =>
    obtain ⟨k1, v1⟩ := e
    by_cases h : k1 = k
    · subst h
      simp [mapSet, containsKey]
    · by_cases h2 : k1 = c
      · subst h2
        simp [mapSet, containsKey, h]
      · simp [mapSet, containsKey, h, h2, ih]

theorem containsKey_scan_fold (files : List String) :
    ∀ (acc : List (String × String)) (c : String),
      containsKey (files.foldl scanStep acc) c = true ↔
        containsKey acc c = true ∨ ∃ f ∈ files, langCodeOf f = some c := by
  induction files with
  | nil => intro acc c; simp
  | cons f rest ih =>
    intro acc c
    rw [List.foldl_cons]
    rw [ih (scanStep acc f) c]
    cases hf : langCodeOf f with
    | none =>
      simp only [scanStep, hf]
      constructor
      · rintro (h | ⟨g, hg, hcode⟩)
        · exact Or.inl h
        · exact Or.inr ⟨g, List.mem_cons_of_mem f hg, hcode⟩
      · rintro (h | ⟨g, hg, hcode⟩)
        · exact Or.inl h
        · rcases List.mem_cons.mp hg with rfl | hg2
          · rw [hf] at hcode; exact absurd hcode (by simp)
          · exact Or.inr ⟨g, hg2, hcode⟩
    | some code =>
      simp only [scanStep, hf, containsKey_mapSet]
      constructor
      · rintro (h | h)
        · rcases Bool.or_eq_true_iff.mp h with h2 | h2
          · exact Or.inr ⟨f, List.mem_cons_self f rest,
              by rw [hf, decide_eq_true_iff.mp h2]⟩
          · exact Or.inl h2
        · rcases h with ⟨g, hg, hcode⟩
          exact Or.inr ⟨g, List.mem_cons_of_mem f hg, hcode⟩
      · rintro (h | ⟨g, hg, hcode⟩)
        · exact Or.inl (by simp [h])
        · rcases List.mem_cons.mp hg with rfl | hg2
          · rw [hf] at hcode
            exact Or.inl (by simp [Option.some_inj.mp hcode])
          · exact Or.inr ⟨g, hg2, hcode⟩

/-- C6: the scan clears the prior index (the result does not depend on
it), indexes exactly the file names matching two letters plus `.json`
case-insensitively under their lowercased codes, and on the directory
`en.json, fr.json, de.json, config.json` produces exactly the keys
`en, fr, de`, excluding `config.json`. -/
theorem scan_indexes_exactly_language_files
    (prior : List (String × String)) (files : List String) :
    scanLanguageFiles prior files = scanLanguageFiles [] files
    ∧ (∀ c, containsKey (scanLanguageFiles prior files) c = true ↔
        ∃ f ∈ files, langCodeOf f = some c)
    ∧ (scanLanguageFiles []
        [("en.json"), ("fr.json"), ("de.json"), ("config.json")]).map Prod.fst
      = [("en"), ("fr"), ("de")] := by
  refine ⟨rfl, ?_, by rfl⟩
  intro c
  unfold scanLanguageFiles
  rw [containsKey_scan_fold files [] c]
  simp [containsKey]

theorem scan_indexes_exactly_language_files_witness :
    containsKey (scanLanguageFiles []
      [("en.json"), ("fr.json"), ("de.json"), ("config.json")]) ("fr") = true :=
  ((scan_indexes_exactly_language_files []
      [("en.json"), ("fr.json"), ("de.json"), ("config.json")]).2.1 ("fr")).mpr
    ⟨("fr.json"), by simp, by rfl⟩

/-- Source-value walk of `LanguageFilesService.createMissingTranslation`
(lines 237-254): stop on the last defined object when a segment is
missing, then keep the final value only when it is a string; it only
prefills the input prompt. -/
def sourceWalk : DictTree → List String → DictTree
  | t, [] => t
  | t, p :: rest =>
    match childOf t p with
    | none => t
    | some t2 => sourceWalk t2 rest

/-- Prefill value suggested by the input prompt. -/
def sourceValueOf (es : List (String × DictTree)) (segs : List String) : Option String :=
  match sourceWalk (DictTree.node es) segs with
  | DictTree.leaf s => some s
  | _ => none

/-- `LanguageFilesService.createMissingTranslation`
(src/src/services/language-files-service.ts, lines 213-359), observable
effect on the target file: parse both files (a parse failure is caught and
aborts with no write), prompt for a translation value (`input`, prefilled
from the source walk), abort with no write on a cancelled prompt or an
empty value (`if (!translationValue)`), otherwise run the create walk and
write the updated tree.  `none` means no write occurs; editor positioning
and notifications are elided. -/
def createMissingTranslation (input : Option String)
    (sourceFile targetFile : FileData) (keyPath : String) :
    Option (List (String × DictTree)) :=
  match sourceFile, targetFile with
  | FileData.valid ses, FileData.valid tes =>
    let _prefill := sourceValueOf ses (splitKey keyPath)
    match input with
    | none => none
    | some v =>
      if v = ("") then none
      else some (createWalkNode (splitKey keyPath) tes v)
  | _, _ => none

/-- Missing-key branch of `LanguageFilesService.navigateToTranslation`
(lines 181-199): the quick-pick answer (`accept`) gates the call to
`createMissingTranslation`; the resulting content of the target file is
the written tree when a write occurs and the original content otherwise. -/
def missingKeyFlow (accept : Bool) (input : Option String)
    (sourceFile targetFile : FileData) (keyPath : String) : FileData :=
  if accept then
    match createMissingTranslation input sourceFile targetFile keyPath with
    | some tes => FileData.valid tes
    | none => targetFile
  else targetFile

/-- C7: when the user declines the creation prompt, cancels the
translation-value input, or submits an empty value, the missing-key flow
performs no write and the target file content is exactly its original
value. -/
theorem abort_leaves_target_file_unchanged (accept : Bool) (input : Option String)
    (sourceFile targetFile : FileData) (keyPath : String)
    (h : accept = false ∨ input = none ∨ input = some ("")) :
    missingKeyFlow accept input sourceFile targetFile keyPath = targetFile := by
  rcases h with rfl | rfl | rfl
  · rfl
  · cases accept with
    | false => rfl
    | true =>
      cases sourceFile <;> cases targetFile <;> rfl
  · cases accept with
    | false => rfl
    | true =>
      cases sourceFile <;> cases targetFile <;>
        simp [missingKeyFlow, createMissingTranslation]

theorem abort_leaves_target_file_unchanged_witness :
    missingKeyFlow false (some ("Bonjour"))
        (FileData.valid [(("greeting"), DictTree.leaf ("Hello"))])
        (FileData.valid []) ("greeting")
      = FileData.valid [] :=
  abort_leaves_target_file_unchanged false (some ("Bonjour"))
    (FileData.valid [(("greeting"), DictTree.leaf ("Hello"))])
    (FileData.valid []) ("greeting") (Or.inl rfl)

/-- Double-quote character. -/
def dquote : Char := Char.ofNat 34

/-- Single-quote character. -/
def squote : Char := Char.ofNat 39

/-- Character-level recursion behind `getIndentLevel`. -/
def indentOfChars : List Char → Nat
  | [] => 0
  | c :: t =>
    if c = ' ' then 1 + indentOfChars t
    else if c = '\t' then 4 + indentOfChars t
    else 0

/-- `JsonKeyPathService.getIndentLevel` (src/unnamed/part_005, lines
89-101): leading spaces count 1, leading tabs count 4, stop at the first
other character. -/
def getIndentLevel (line : String) : Nat :=
  indentOfChars line.toList

/-- JavaScript `String.prototype.trim`. -/
def jsTrim (s : String) : String :=
  List.asString
    (((s.toList.dropWhile Char.isWhitespace).reverse.dropWhile Char.isWhitespace).reverse)

/-- Text of the line before its first colon, `line.substring(0, line.indexOf(":"))`. -/
def beforeColon (line : String) : String :=
  List.asString (line.toList.takeWhile fun c => ¬ c = ':')

/-- Index of the first colon, `line.indexOf(":")`, for lines containing one. -/
def colonIdx (line : String) : Nat :=
  (line.toList.takeWhile fun c => ¬ c = ':').length

/-- `line.includes(":")`. -/
def lineHasColon (line : String) : Bool :=
  line.toList.contains ':'

/-- Quote stripping of the resolver: when the trimmed token starts and
ends with the same quote character, drop both.  A one-character quote
token is left unchanged, matching the JavaScript behaviour where
`substring(1, 0)` swaps its arguments and returns the original character. -/
def stripQuotes (k : String) : String :=
  let cs := k.toList
  if 2 ≤ cs.length ∧ cs.headD ' ' = cs.getLastD ' '
      ∧ (cs.headD ' ' = dquote ∨ cs.headD ' ' = squote) then
    List.asString ((cs.drop 1).dropLast)
  else k

/-- Key token of a line: text before the first colon, trimmed, one layer
of matching quotes stripped. -/
def keyTokenOf (line : String) : String :=
  stripQuotes (jsTrim (beforeColon line))

/-- JavaScript `array.join(".")`. -/
def joinDots : List String → String
  | [] => ("")
  | [p] => p
  | p :: rest => p ++ (".") ++ joinDots rest

/-- Upward parent-key loop of `getKeyPathAtPosition` (lines 46-70): from
line `n - 1` down to line 0, a line whose indentation is strictly below
the tracked indentation and which contains a colon contributes its key
token (placed before closer ancestors) and updates the tracked
indentation. -/
def parentsFrom (lines : List String) : Nat → Nat → List String
  | 0, _ => []
  | n + 1, ind =>
    let l := lines.getD n ("")
    if getIndentLevel l < ind ∧ lineHasColon l = true then
      parentsFrom lines n (getIndentLevel l) ++ [keyTokenOf l]
    else
      parentsFrom lines n ind

/-- `JsonKeyPathService.getKeyPathAtPosition` (src/unnamed/part_005,
lines 14-82).  The whole body runs in a try block: a `JSON.parse` failure
on the document text (the parsed value is otherwise unused) and an
out-of-range line both throw, are caught, and yield `undefined`.  The
target line must contain a colon, the cursor must not lie strictly after
the first colon, and the result joins the parent keys (outermost first)
with the leaf key token. -/
def getKeyPathAtPosition (parseOk : Bool) (lines : List String)
    (lineIdx colIdx : Nat) : Option String :=
  if parseOk = true then
    match lines.get? lineIdx with
    | none => none
    | some line =>
      if ¬ lineHasColon line = true then none
      else if colonIdx line < colIdx then none
      else
        some (joinDots
          (parentsFrom lines lineIdx (getIndentLevel line) ++ [keyTokenOf line]))
  else none

/-- Ancestor collection as worded by the specification: walk the prior
lines upward (closest first), keep exactly those whose indentation is
strictly below the tracked indentation and which contain a colon, update
the tracked indentation at each kept line, and list ancestors outermost
first. -/
def specAncestorsRev : List String → Nat → List String
  | [], _ => []
  | l :: above, ind =>
    if getIndentLevel l < ind ∧ lineHasColon l = true then
      specAncestorsRev above (getIndentLevel l) ++ [keyTokenOf l]
    else
      specAncestorsRev above ind

/-- Key path as worded by the specification: ancestors outermost first,
then the leaf key token, joined with dots. -/
def specKeyPath (lines : List String) (lineIdx : Nat) (line : String) : String :=
  joinDots
    (specAncestorsRev (lines.take lineIdx).reverse (getIndentLevel line)
      ++ [keyTokenOf line])

theorem parentsFrom_eq_specAncestorsRev (lines : List String) :
    ∀ (n : Nat) (ind : Nat), n ≤ lines.length →
      parentsFrom lines n ind = specAncestorsRev (lines.take n).reverse ind := by
  intro n
  induction n with
  | zero => intro ind _; simp [parentsFrom, specAncestorsRev]
  | succ m ih =>
    intro ind hle
    have hm : m < lines.length := Nat.lt_of_succ_le hle
    have htake : (lines.take (m + 1)).reverse
        = lines.get ⟨m, hm⟩ :: (lines.take m).reverse := by
      rw [List.take_succ]
      rw [List.getElem?_eq_getElem hm]
      simp
    have hgetD : lines.getD m ("") = lines.get ⟨m, hm⟩ := by
      simp [List.getD, List.getElem?_eq_getElem hm]
    rw [htake]
    show (let l := lines.getD m ("")
      if getIndentLevel l < ind ∧ lineHasColon l = true then
        parentsFrom lines m (getIndentLevel l) ++ [keyTokenOf l]
      else parentsFrom lines m ind)
      = _
    simp only [hgetD, specAncestorsRev]
    by_cases hc : getIndentLevel (lines.get ⟨m, hm⟩) < ind
        ∧ lineHasColon (lines.get ⟨m, hm⟩) = true
    · simp only [if_pos hc]
      rw [ih (getIndentLevel (lines.get ⟨m, hm⟩)) (Nat.le_of_lt hm)]
    · simp only [if_neg hc]
      rw [ih ind (Nat.le_of_lt hm)]

/-- C2: on a parseable JSON document, for a target line inside the
document: a line without a colon resolves to absent; a cursor strictly
after the first colon resolves to absent; otherwise the result is the
trimmed, quote-stripped key token prefixed by the ancestors collected by
the upward indentation walk, joined outermost first with dots. -/
theorem key_path_resolver_cases (lines : List String) (lineIdx colIdx : Nat)
    (h : lineIdx < lines.length) :
    (lineHasColon (lines.get ⟨lineIdx, h⟩) = false →
        getKeyPathAtPosition true lines lineIdx colIdx = none)
    ∧ (colonIdx (lines.get ⟨lineIdx, h⟩) < colIdx →
        getKeyPathAtPosition true lines lineIdx colIdx = none)
    ∧ (lineHasColon (lines.get ⟨lineIdx, h⟩) = true →
        colIdx ≤ colonIdx (lines.get ⟨lineIdx, h⟩) →
        getKeyPathAtPosition true lines lineIdx colIdx
          = some (specKeyPath lines lineIdx (lines.get ⟨lineIdx, h⟩))) := by
  have hget : lines.get? lineIdx = some (lines.get ⟨lineIdx, h⟩) := by
    rw [List.get?_eq_getElem?]
    simp [List.getElem?_eq_getElem h, List.get_eq_getElem]
  have hmain : getKeyPathAtPosition true lines lineIdx colIdx
      = (if ¬ lineHasColon (lines.get ⟨lineIdx, h⟩) = true then none
         else if colonIdx (lines.get ⟨lineIdx, h⟩) < colIdx then none
         else some (joinDots
           (parentsFrom lines lineIdx (getIndentLevel (lines.get ⟨lineIdx, h⟩))
             ++ [keyTokenOf (lines.get ⟨lineIdx, h⟩)]))) := by
    unfold getKeyPathAtPosition
    rw [if_pos rfl, hget]
  refine ⟨?_, ?_, ?_⟩
  · intro hcol
    rw [hmain, if_pos (by simpa using hcol)]
  · intro hcur
    rw [hmain]
    by_cases hcol : lineHasColon (lines.get ⟨lineIdx, h⟩) = true
    · rw [if_neg (by simpa using hcol), if_pos hcur]
    · rw [if_pos (by simpa using hcol)]
  · intro hcol hcur
    rw [hmain, if_neg (by simpa using hcol), if_neg (Nat.not_lt.mpr hcur)]
    rw [parentsFrom_eq_specAncestorsRev lines lineIdx
      (getIndentLevel (lines.get ⟨lineIdx, h⟩)) (Nat.le_of_lt h)]
    rfl

/-- Pretty-printed two-space-indented JSON document of the specification
example. -/
def exampleDocLines : List String :=
  [("\x7b"),
   ("  \"general\": \x7b"),
   ("    \"submit\": \"Submit\","),
   ("    \"cancel\": \"Cancel\""),
   ("  \x7d"),
   ("\x7d")]

theorem key_path_resolver_cases_witness :
    getKeyPathAtPosition true exampleDocLines 2 5 = some ("general.submit") := by
  have h := (key_path_resolver_cases exampleDocLines 2 5 (by decide)).2.2
    (by decide) (by decide)
  rw [h]
  rfl

/-- C10: when the document text does not parse as JSON, the resolver
returns absent at every position, whatever the lines look like, because
`JSON.parse` on the full text guards all line-based inference. -/
theorem resolver_guards_on_full_parse (lines : List String) (lineIdx colIdx : Nat) :
    getKeyPathAtPosition false lines lineIdx colIdx = none := rfl

/-- Character class `[a-z0-9_]` under the `i` flag of `I18N_KEY_PATTERN`
(src/src/utils/regex-patterns.ts): ASCII letters, digits, underscore. -/
def isWordChar (c : Char) : Bool := c.isAlphanum || c = '_'

/-- Quote alternative `(['"])` of the pattern. -/
def isQuote (c : Char) : Bool := c = squote || c = dquote

/-- Matching engine for `/(['"])([a-z0-9_]+(?:\.[a-z0-9_]+)+)\1/gi` after
an opening quote `q`.  `segsDone` counts completed dot-terminated
segments, `segLen` counts the characters of the current segment, `accRev`
holds the interior consumed so far, reversed.  At a segment boundary the
next character decides the continuation: a dot extends (more segments), a
matching quote with at least two segments closes.  The regular
expression's greedy backtracking never changes this outcome because an
interior character is never a quote or a dot, so the alternatives are
mutually exclusive.  On success: the interior and the text after the
closing quote. -/
def matchFrom (q : Char) : Nat → Nat → List Char → List Char →
    Option (List Char × List Char)
  | _, _, _, [] => none
  | segsDone, segLen, accRev, c :: t =>
    if isWordChar c = true then matchFrom q segsDone (segLen + 1) (c :: accRev) t
    else if segLen = 0 then none
    else if c = q ∧ 2 ≤ segsDone + 1 then some (accRev.reverse, t)
    else if c = '.' then matchFrom q (segsDone + 1) 0 ('.' :: accRev) t
    else none

/-- Global scan of `I18N_KEY_PATTERN` over the text: try each position in
turn (only a quote can start a match), emit the full matched span, and
continue after the closing quote, as `RegExp.exec` with the `g` flag does.
Each step consumes at least one character, so the fuel `l.length` supplied
by `scanMatches` never runs out. -/
def scanFrom : Nat → List Char → List (List Char)
  | 0, _ => []
  | _, [] => []
  | fuel + 1, c :: t =>
    if isQuote c = true then
      match matchFrom c 0 0 [] t with
      | some (interior, rest) => (c :: interior ++ [c]) :: scanFrom fuel rest
      | none => scanFrom fuel t
    else scanFrom fuel t

/-- All matches of `I18N_KEY_PATTERN` in a text. -/
def scanMatches (l : List Char) : List (List Char) :=
  scanFrom l.length l

/-- Reversed interior consisting of exactly `n` nonempty word segments
joined by dots, as built by the matching engine. -/
inductive SegsRev : List Char → Nat → Prop where
  | single (w : List Char) (hw : w ≠ []) (hall : ∀ c ∈ w, isWordChar c = true) :
      SegsRev w.reverse 1
  | extend (w a : List Char) (n : Nat) (hw : w ≠ [])
      (hall : ∀ c ∈ w, isWordChar c = true) (h : SegsRev a n) :
      SegsRev (w.reverse ++ '.' :: a) (n + 1)

/-- Well-formedness of a matched span, as worded by the claim: delimited
by one matching pair of quotes, interior made of two or more nonempty
`[a-zA-Z0-9_]` segments joined by literal dots. -/
def specWellFormed (s : List Char) : Bool :=
  match s with
  | [] => false
  | q :: rest =>
    isQuote q && decide (rest ≠ [])
      && decide (rest.getLastD ' ' = q)
      && decide (2 ≤ (splitDots rest.dropLast).length)
      && (splitDots rest.dropLast).all fun p => decide (p ≠ []) && p.all isWordChar

theorem isWordChar_ne_dot {c : Char} (h : isWordChar c = true) : ¬ c = '.' := by
  intro hc
  subst hc
  simp [isWordChar, Char.isAlphanum, Char.isAlpha, Char.isDigit,
    Char.isUpper, Char.isLower] at h

theorem splitDots_word (w : List Char) (hall : ∀ c ∈ w, isWordChar c = true) :
    splitDots w = [w] := by
  induction w with
  | nil => rfl
  | cons c t ih =>
    have hc : ¬ c = '.' := isWordChar_ne_dot (hall c (List.mem_cons_self c t))
    have ht := ih fun x hx => hall x (List.mem_cons_of_mem c hx)
    simp [splitDots, hc, ht]

theorem splitDots_append_dot (x y : List Char) :
    splitDots (x ++ '.' :: y) = splitDots x ++ splitDots y := by
  induction x with
  | nil => simp [splitDots]
  | cons c t ih =>
    by_cases hc : c = '.'
    · simp [splitDots, hc, ih]
    · simp only [List.cons_append, splitDots, if_neg hc]
      cases hs : splitDots t with
      | nil => exact absurd hs (splitDots_ne_nil t)
      | cons g gs =>
        simp only [List.append_eq]
        rw [ih, hs]
        simp

theorem segsRev_parts {a : List Char} {n : Nat} (h : SegsRev a n) :
    (splitDots a.reverse).length = n
    ∧ ∀ p ∈ splitDots a.reverse, p ≠ [] ∧ ∀ c ∈ p, isWordChar c = true := by
  induction h with
  | single w hw hall =>
    rw [List.reverse_reverse, splitDots_word w hall]
    exact ⟨rfl, by simpa using ⟨hw, hall⟩⟩
  | extend w a n hw hall hseg ih =>
    have hrev : (w.reverse ++ '.' :: a).reverse = a.reverse ++ '.' :: w := by
      simp
    rw [hrev, splitDots_append_dot, splitDots_word w hall]
    constructor
    · simp [ih.1]
    · intro p hp
      rcases List.mem_append.mp hp with hp2 | hp2
      · exact ih.2 p hp2
      · rw [List.mem_singleton.mp hp2]
        exact ⟨hw, hall⟩

/-- Invariant of the matching engine: the consumed interior is a partial
current segment (all word characters, `segLen` of them) optionally on top
of a dot and `segsDone` completed segments. -/
def MatchInv (accRev : List Char) (segsDone segLen : Nat) : Prop :=
  ∃ cur : List Char, (∀ c ∈ cur, isWordChar c = true) ∧ cur.length = segLen ∧
    ((segsDone = 0 ∧ accRev = cur) ∨ ∃ a, SegsRev a segsDone ∧ accRev = cur ++ '.' :: a)

theorem segsRev_of_word {cur : List Char} (hne : cur ≠ [])
    (hcw : ∀ c ∈ cur, isWordChar c = true) : SegsRev cur 1 := by
  have h := SegsRev.single cur.reverse (by simpa using hne)
    (fun c hc => hcw c (List.mem_reverse.mp hc))
  rwa [List.reverse_reverse] at h

theorem segsRev_extend_word {cur a : List Char} {n : Nat} (hne : cur ≠ [])
    (hcw : ∀ c ∈ cur, isWordChar c = true) (h : SegsRev a n) :
    SegsRev (cur ++ '.' :: a) (n + 1) := by
  have h2 := SegsRev.extend cur.reverse a n (by simpa using hne)
    (fun c hc => hcw c (List.mem_reverse.mp hc)) h
  rwa [List.reverse_reverse] at h2

theorem matchFrom_shape (q : Char) (l : List Char) :
    ∀ (segsDone segLen : Nat) (accRev it rest : List Char),
      MatchInv accRev segsDone segLen →
      matchFrom q segsDone segLen accRev l = some (it, rest) →
      ∃ m, 2 ≤ m ∧ SegsRev it.reverse m := by
  induction l with
  | nil =>
    intro segsDone segLen accRev it rest _ h
    simp [matchFrom] at h
  | cons c t ih =>
    intro segsDone segLen accRev it rest hinv h
    simp only [matchFrom] at h
    by_cases hw : isWordChar c = true
    · rw [if_pos hw] at h
      obtain ⟨cur, hcw, hclen, hrest⟩ := hinv
      refine ih segsDone (segLen + 1) (c :: accRev) it rest ⟨c :: cur, ?_, by simp [hclen], ?_⟩ h
      · intro x hx
        rcases List.mem_cons.mp hx with rfl | hx2
        · exact hw
        · exact hcw x hx2
      · rcases hrest with ⟨h0, rfl⟩ | ⟨a, hs, rfl⟩
        · exact Or.inl ⟨h0, rfl⟩
        · exact Or.inr ⟨a, hs, by simp⟩
    · rw [if_neg hw] at h
      by_cases h0 : segLen = 0
      · rw [if_pos h0] at h
        exact absurd h (by simp)
      · rw [if_neg h0] at h
        obtain ⟨cur, hcw, hclen, hrest⟩ := hinv
        have hcur : cur ≠ [] := by
          intro hnil
          rw [hnil] at hclen
          exact h0 hclen.symm
        by_cases hq : c = q ∧ 2 ≤ segsDone + 1
        · rw [if_pos hq] at h
          have hit : it = accRev.reverse := by
            have := (Option.some_inj.mp h)
            exact (congrArg Prod.fst this).symm
          rcases hrest with ⟨hz, rfl⟩ | ⟨a, hs, rfl⟩
          · subst hz
            exact absurd hq.2 (by omega)
          · refine ⟨segsDone + 1, hq.2, ?_⟩
            rw [hit, List.reverse_reverse]
            exact segsRev_extend_word hcur hcw hs
        · rw [if_neg hq] at h
          by_cases hdot : c = '.'
          · rw [if_pos hdot] at h
            refine ih (segsDone + 1) 0 ('.' :: accRev) it rest ⟨[], by simp, rfl, Or.inr ?_⟩ h
            refine ⟨accRev, ?_, by simp⟩
            rcases hrest with ⟨hz, hae⟩ | ⟨a, hs, hae⟩
            · subst hz
              rw [hae]
              exact segsRev_of_word hcur hcw
            · rw [hae]
              exact segsRev_extend_word hcur hcw hs
          · rw [if_neg hdot] at h
            exact absurd h (by simp)

theorem wellformed_of_segs {q : Char} {it : List Char} {n : Nat}
    (hq : isQuote q = true) (h2 : 2 ≤ n) (hseg : SegsRev it.reverse n) :
    specWellFormed (q :: it ++ [q]) = true := by
  obtain ⟨hlen, hparts⟩ := segsRev_parts hseg
  rw [List.reverse_reverse] at hlen hparts
  have hlast : (it ++ [q]).getLastD ' ' = q := by
    cases it <;> simp [List.getLastD]
  have hdrop : (it ++ [q]).dropLast = it := by
    simp
  have hall : ((splitDots it).all fun p => decide (p ≠ []) && p.all isWordChar) = true := by
    rw [List.all_eq_true]
    intro p hp
    obtain ⟨hne, hw⟩ := hparts p hp
    simp only [Bool.and_eq_true, decide_eq_true_eq, List.all_eq_true]
    exact ⟨hne, hw⟩
  simp only [specWellFormed, hdrop, hlen]
  simp [hq, hlast, h2, hall]
  exact ⟨hlen ▸ h2, hparts⟩

theorem scanFrom_well_formed (fuel : Nat) :
    ∀ (l : List Char), ∀ m ∈ scanFrom fuel l, specWellFormed m = true := by
  induction fuel with
  | zero =>
    intro l m hm
    simp [scanFrom] at hm
  | succ f ih =>
    intro l m hm
    cases l with
    | nil => simp [scanFrom] at hm
    | cons c t =>
      by_cases hq : isQuote c = true
      · simp only [scanFrom, if_pos hq] at hm
        cases hmatch : matchFrom c 0 0 [] t with
        | none =>
          rw [hmatch] at hm
          exact ih t m hm
        | some pr =>
          obtain ⟨interior, rest⟩ := pr
          rw [hmatch] at hm
          rcases List.mem_cons.mp hm with rfl | hm2
          · obtain ⟨n, hn2, hseg⟩ := matchFrom_shape c t 0 0 [] interior rest
              ⟨[], by simp, rfl, Or.inl ⟨rfl, rfl⟩⟩ hmatch
            exact wellformed_of_segs hq hn2 hseg
          · exact ih rest m hm2
      · simp only [scanFrom, if_neg hq] at hm
        exact ih t m hm

/-- C9: every match the key pattern matcher produces over any input text
is a quoted span delimited by one matching pair of quotes whose interior
is two or more nonempty `[a-zA-Z0-9_]` segments joined by literal dots;
in particular no match arises from an unterminated or mismatched-quote
sequence. -/
theorem pattern_matches_are_well_formed (l : List Char) :
    ∀ m ∈ scanMatches l, specWellFormed m = true :=
  fun m hm => scanFrom_well_formed l.length l m hm

theorem pattern_matches_are_well_formed_witness :
    specWellFormed (("'general.generate'").toList) = true :=
  pattern_matches_are_well_formed (("'general.generate'").toList)
    (("'general.generate'").toList) (by decide)
